import Mathlib

/-!
# Verification of the `NSDictionary` collision-bucket map
(`src/frameworks/foundation/ns_dictionary.rs`)

Shallow embedding of `DictionaryHostObject` and the Objective-C method shims
built on it. Guest object handles (`id` in the source) are modelled as
natural numbers, with `nil = 0`. The dynamic Objective-C message sends used
by the container (`hash`, `isEqualTo:`, `copy`) are modelled by a record of
pure functions `DynOps`; the retain/release/copy reference-counting calls the
container issues are recorded in an explicit event trace. The source's
`HashMap<Hash, Vec<(id, id)>>` is modelled as an association list from hash
codes to buckets; Rust's `HashMap` iteration order is unspecified but fixed
for an unmutated map, which the list order models. `Hash` is `NSUInteger`
(`u32`) in the source; the container performs no arithmetic on hash codes,
so they are embedded as `Nat`.
-/

set_option autoImplicit false

namespace NSDictionary

/-- Guest object handle (`id` in the source). -/
abbrev ObjId := Nat

/-- The null handle (`nil`). -/
def nil : ObjId := 0

/-- Alias for the return type of the `hash` method (`type Hash = NSUInteger`). -/
abbrev Hash := Nat

/-- The dynamic Objective-C operations the container invokes on key objects:
`msg![env; key hash]`, `msg![env; candidate_key isEqualTo:key]`, and
`msg![env; key copy]`, modelled as pure functions of the handle. -/
structure DynOps where
  hash : ObjId → Hash
  isEqualTo : ObjId → ObjId → Bool
  copy : ObjId → ObjId

/-- Reference-counting / dynamic-dispatch events issued by the container. -/
inductive Event where
  | retain (h : ObjId)
  | release (h : ObjId)
  | copyEv (src dst : ObjId)
  | hashEv (h : ObjId)
  | eqEv (a b : ObjId)
  deriving DecidableEq, Repr

/-- The retain/release/copy events are the ones that mutate ownership counts;
`hashEv`/`eqEv` are plain dynamic dispatches. -/
def Event.isOwnership : Event → Bool
  | .retain _ => true
  | .release _ => true
  | .copyEv _ _ => true
  | .hashEv _ => false
  | .eqEv _ _ => false

/-- The handles released in a trace, in order. -/
def releasesOf (tr : List Event) : List ObjId :=
  tr.filterMap fun e => match e with | .release h => some h | _ => none

/-- A collision bucket: the list of key-value pairs sharing one hash code,
in insertion order (`Vec<(id, id)>`). -/
abbrev Bucket := List (ObjId × ObjId)

/-- Host object backing `_touchHLE_NSDictionary` (and `_touchHLE_NSSet`):
a map from hash values to buckets of key-value pairs, plus the entry count.
The `HashMap` is modelled as an association list with distinct hash keys. -/
structure DictionaryHostObject where
  map : List (Hash × Bucket)
  count : Nat
  deriving DecidableEq, Repr

/-- `Default::default()`: empty map, zero count. -/
def emptyDict : DictionaryHostObject := ⟨[], 0⟩

instance : Inhabited DictionaryHostObject := ⟨emptyDict⟩

/-- `self.map.get(&hash)`: first association with the given hash code. -/
def findBucket : List (Hash × Bucket) → Hash → Option Bucket
  | [], _ => none
  | (h', b) :: rest, h => if h' = h then some b else findBucket rest h

/-- In-place mutation through `self.map.get_mut(&hash)`: replace the bucket
of the first association with the given hash code, keeping its position. -/
def updateBucket : List (Hash × Bucket) → Hash → Bucket → List (Hash × Bucket)
  | [], _, _ => []
  | (h', b) :: rest, h, b' =>
    if h' = h then (h', b') :: rest else (h', b) :: updateBucket rest h b'

/-- The combined key test of the source's scan loops:
`candidate_key == key || msg![env; candidate_key isEqualTo:key]`. -/
def keyMatch (ops : DynOps) (candidate key : ObjId) : Bool :=
  candidate = key || ops.isEqualTo candidate key

/-- The `lookup` scan over one bucket: return the value of the first entry
whose key is identity-equal or dynamically equal to `key`, together with the
trace of `isEqualTo:` dispatches performed (the identity short-circuit emits
none). -/
def scanBucket (ops : DynOps) (key : ObjId) : Bucket → Option ObjId × List Event
  | [] => (none, [])
  | (ck, cv) :: rest =>
    if ck = key then (some cv, [])
    else if ops.isEqualTo ck key then (some cv, [Event.eqEv ck key])
    else
      let (r, tr) := scanBucket ops key rest
      (r, Event.eqEv ck key :: tr)

/-- `DictionaryHostObject::lookup`: hash the key, return `nil` if there is no
bucket, else scan the bucket. Takes `&self` in the source, so the container
state is an input only; the trace records the dynamic dispatches. -/
def DictionaryHostObject.lookup (ops : DynOps) (s : DictionaryHostObject)
    (key : ObjId) : ObjId × List Event :=
  match findBucket s.map (ops.hash key) with
  | none => (nil, [Event.hashEv key])
  | some b =>
    let (r, tr) := scanBucket ops key b
    (r.getD nil, Event.hashEv key :: tr)

/-- The overwrite scan of `insert`: walk the bucket looking for an entry whose
key matches the (already copied/retained) new key; on the first match replace
its value in place and report the old value. Returns the updated bucket and
old value on a hit, `none` on a miss, plus the `isEqualTo:` trace. -/
def overwriteScan (ops : DynOps) (key value : ObjId) :
    Bucket → Option (Bucket × ObjId) × List Event
  | [] => (none, [])
  | (ck, cv) :: rest =>
    if ck = key then (some ((ck, value) :: rest, cv), [])
    else if ops.isEqualTo ck key then (some ((ck, value) :: rest, cv), [Event.eqEv ck key])
    else
      let (r, tr) := overwriteScan ops key value rest
      (r.map (fun p => ((ck, cv) :: p.1, p.2)), Event.eqEv ck key :: tr)

/-- The effective key stored by `insert`:
`if copy_key { msg![env; key copy] } else { retain(env, key) }`
(`retain` returns the same handle). -/
def effKey (ops : DynOps) (copy_key : Bool) (key : ObjId) : ObjId :=
  if copy_key then ops.copy key else key

/-- The ownership event issued for the key at the top of `insert`. -/
def keyEvents (ops : DynOps) (copy_key : Bool) (key : ObjId) : List Event :=
  if copy_key then [Event.copyEv key (ops.copy key)] else [Event.retain key]

/-- `DictionaryHostObject::insert`: copy or retain the key, hash the (stored)
key, retain the value; if no bucket exists, create a singleton bucket and
increment `count`; otherwise scan for an equal key — on a hit release the old
value and replace it in place (count unchanged), on a miss append the new
entry and increment `count`. Returns the new state and the event trace. -/
def DictionaryHostObject.insert (ops : DynOps) (s : DictionaryHostObject)
    (key value : ObjId) (copy_key : Bool) : DictionaryHostObject × List Event :=
  let k := effKey ops copy_key key
  let h := ops.hash k
  let evs := keyEvents ops copy_key key ++ [Event.hashEv k, Event.retain value]
  match findBucket s.map h with
  | none =>
    (⟨s.map ++ [(h, [(k, value)])], s.count + 1⟩, evs)
  | some b =>
    match overwriteScan ops k value b with
    | (some (b', old), tr) =>
      (⟨updateBucket s.map h b', s.count⟩, evs ++ tr ++ [Event.release old])
    | (none, tr) =>
      (⟨updateBucket s.map h (b ++ [(k, value)]), s.count + 1⟩, evs ++ tr)

/-- The release events issued for every entry of every bucket, in table
order: `release(key)` then `release(value)` per entry. -/
def relFlat : List (Hash × Bucket) → List Event
  | [] => []
  | p :: rest =>
    p.2.foldr (fun e acc => Event.release e.1 :: Event.release e.2 :: acc)
      (relFlat rest)

/-- All keys of a bucket table, bucket-major, within-bucket insertion order. -/
def keysFlat : List (Hash × Bucket) → List ObjId
  | [] => []
  | p :: rest => p.2.map Prod.fst ++ keysFlat rest

/-- All values of a bucket table, in the same order. -/
def valuesFlat : List (Hash × Bucket) → List ObjId
  | [] => []
  | p :: rest => p.2.map Prod.snd ++ valuesFlat rest

/-- Keys and values of a bucket table interleaved per entry (key then value),
in table order — the handles `release` is called on, in call order. -/
def pairsOf : List (Hash × Bucket) → List ObjId
  | [] => []
  | p :: rest => p.2.foldr (fun e acc => e.1 :: e.2 :: acc) (pairsOf rest)

/-- `DictionaryHostObject::release`: walk every bucket and release both key
and value of every entry. Returns the trace of release events issued. -/
def DictionaryHostObject.release (s : DictionaryHostObject) : List Event :=
  relFlat s.map

/-- `DictionaryHostObject::iter_keys`: all keys, bucket-major, within-bucket
insertion order (`self.map.values().flatten().map(|&(key, _value)| key)`). -/
def DictionaryHostObject.iter_keys (s : DictionaryHostObject) : List ObjId :=
  keysFlat s.map

/-- All stored values, in the same bucket-major order. -/
def DictionaryHostObject.iter_values (s : DictionaryHostObject) : List ObjId :=
  valuesFlat s.map

/-- Total number of stored entries: `sum(len(bucket) for bucket in table)`. -/
def countSum (m : List (Hash × Bucket)) : Nat :=
  m.foldr (fun p acc => p.2.length + acc) 0

/-- The bucket stored for a hash code, or `[]` when there is none. -/
def bucketOf (s : DictionaryHostObject) (h : Hash) : Bucket :=
  (findBucket s.map h).getD []

/-- Fold of `DictionaryHostObject.insert` over a list of
`(key, value, copy_key)` arguments (states only). -/
def insertMany (ops : DynOps) (s : DictionaryHostObject) :
    List (ObjId × ObjId × Bool) → DictionaryHostObject
  | [] => s
  | (k, v, c) :: rest => insertMany ops (DictionaryHostObject.insert ops s k v c).1 rest

/-- `countByEnumeratingWithState:objects:count:` on `NSMutableDictionary`.
If `count == 0` it returns 0 without touching the cursor. Otherwise it skips
`state.state` positions of `self.map.iter()` (via `nth(start_index - 1)` when
`start_index >= 1` — i.e. it skips `start_index` *buckets*), then, while the
batch is below `len`, takes the next bucket and writes
`object.get(0).unwrap().0` — the first entry's key of that bucket — into the
caller's buffer. Finally it stores `start_index + batch_count` back into the
cursor and returns `batch_count`. Result: (keys written to `stackbuf`, new
`state.state`, returned batch count). `get(0).unwrap()` is modelled totally
with `headD` (reachable buckets are never empty). -/
def countByEnumeratingWithState (s : DictionaryHostObject)
    (start_index len : Nat) : List ObjId × Nat × Nat :=
  if s.count = 0 then ([], start_index, 0)
  else
    let chunk := (s.map.drop start_index).take len
    let produced := chunk.map fun p => (p.2.headD (nil, nil)).1
    (produced, start_index + produced.length, produced.length)

/-- Drive `countByEnumeratingWithState` repeatedly (chunk size `len`) from a
given cursor until a call returns 0, collecting all produced keys. `fuel`
bounds the recursion; any fuel larger than the number of buckets reaches the
terminal call. -/
def enumChunks (s : DictionaryHostObject) (len : Nat) : Nat → Nat → List ObjId
  | 0, _ => []
  | fuel + 1, st =>
    let (prod, st', ret) := countByEnumeratingWithState s st len
    if ret = 0 then [] else prod ++ enumChunks s len fuel st'

/-- The `env.objc` registry, restricted to dictionary host objects: a total
map from handles to their boxed `DictionaryHostObject` state. -/
abbrev Registry := ObjId → DictionaryHostObject

/-- `std::mem::take(env.objc.borrow_mut(this))`: hand back the boxed host
object and leave `Default::default()` in its registry slot. -/
def takeHost (reg : Registry) (this : ObjId) : DictionaryHostObject × Registry :=
  (reg this, fun x => if x = this then emptyDict else reg x)

/-- `*env.objc.borrow_mut(this) = host`: store a host object back. -/
def putHost (reg : Registry) (this : ObjId) (host : DictionaryHostObject) : Registry :=
  fun x => if x = this then host else reg x

/-- `- (id)objectForKey:(id)key` on `_touchHLE_NSDictionary`: take the host
object out of the registry, run `lookup` (whose dynamic hash/equality
dispatches observe the registry with the slot defaulted), put the host object
back, return the lookup result. -/
def objectForKey (ops : DynOps) (reg : Registry) (this key : ObjId) :
    Registry × ObjId :=
  let (host, reg') := takeHost reg this
  let (res, _) := host.lookup ops key
  (putHost reg' this host, res)

/-- `- (())setObject:forKey:` on `NSMutableDictionary`: assert the object and
key are non-nil (`!is_null()` and `!= nil` coincide: `nil` is the null
pointer), take the host object, `insert(key, anObject, copy_key: false)`,
store the mutated host object back. `none` models the assertion failure. -/
def setObjectForKey (ops : DynOps) (reg : Registry) (this anObject key : ObjId) :
    Option Registry :=
  if anObject = nil ∨ key = nil then none
  else
    let (host, reg') := takeHost reg this
    let (host', _) := host.insert ops key anObject false
    some (putHost reg' this host')

/-- `- (())setValue:forKey:` on `NSMutableDictionary`: assert the key is
non-null, take the host object, `insert(key, value, false)`, store it back. -/
def setValueForKey (ops : DynOps) (reg : Registry) (this value key : ObjId) :
    Option Registry :=
  if key = nil then none
  else
    let (host, reg') := takeHost reg this
    let (host', _) := host.insert ops key value false
    some (putHost reg' this host')

end NSDictionary

namespace NSDictionary

/-- Concrete dynamic ops forcing a hash collision: every key hashes to `7`,
dynamic equality always answers `false` (so distinct handles are distinct
keys), `copy` is the identity. -/
def opsConst : DynOps := ⟨fun _ => 7, fun _ _ => false, fun x => x⟩

/-- Concrete dynamic ops with collision-free hashing (`hash = id`). -/
def opsIdHash : DynOps := ⟨fun k => k, fun _ _ => false, fun x => x⟩

/-- Concrete dynamic ops where `copy` produces a fresh handle (`x + 100`) and
dynamic equality identifies a handle with its copy (equality mod 100). -/
def opsCopying : DynOps :=
  ⟨fun k => k % 100, fun a b => a % 100 = b % 100, fun x => x + 100⟩

/-- A dictionary holding two entries whose keys collide into one bucket. -/
def sCollide : DictionaryHostObject :=
  insertMany opsConst emptyDict [(1, 11, false), (2, 12, false)]

/-- A dictionary holding five entries in five distinct buckets. -/
def sFive : DictionaryHostObject :=
  insertMany opsIdHash emptyDict
    [(1, 11, false), (2, 12, false), (3, 13, false), (4, 14, false), (5, 15, false)]

/-- `goodAt ops k' eff v b`: bucket `b` contains the entry `(eff, v)`, no
entry before it matches `k'`, and `eff` itself matches `k'` — so a scan for
`k'` returns `v`. -/
def goodAt (ops : DynOps) (k' eff v : ObjId) (b : Bucket) : Prop :=
  ∃ b1 b2, b = b1 ++ (eff, v) :: b2 ∧
    (∀ e ∈ b1, keyMatch ops e.1 k' = false) ∧ keyMatch ops eff k' = true

/-- `StoredAt ops s k' eff v`: the bucket for `hash(k')` holds `(eff, v)` as
the first entry matching `k'`. -/
def StoredAt (ops : DynOps) (s : DictionaryHostObject) (k' eff v : ObjId) : Prop :=
  ∃ b, findBucket s.map (ops.hash k') = some b ∧ goodAt ops k' eff v b

/-- The structural invariants insert maintains: `count` equals the total
entry count; every entry sits in the bucket of its stored key's hash; bucket
hash codes are pairwise distinct; and within a bucket no later key matches
an earlier one (identity or dynamic equality). -/
structure WF (ops : DynOps) (s : DictionaryHostObject) : Prop where
  count_eq : s.count = countSum s.map
  hashes : ∀ p ∈ s.map, ∀ e ∈ p.2, ops.hash e.1 = p.1
  hash_nodup : (s.map.map Prod.fst).Pairwise (fun a b => a ≠ b)
  bucket_nodup : ∀ p ∈ s.map,
    (p.2.map Prod.fst).Pairwise (fun a b => keyMatch ops a b = false)

/-! ## Association-list (bucket table) lemmas -/

theorem findBucket_append_some {m : List (Hash × Bucket)} {h : Hash} {b : Bucket}
    (l : List (Hash × Bucket)) (hf : findBucket m h = some b) :
    findBucket (m ++ l) h = some b := by
  induction m with
  | nil => simp [findBucket] at hf
  | cons p rest ih =>
    rw [List.cons_append]
    unfold findBucket at hf ⊢
    split at hf
    · exact hf ▸ (by simp_all [findBucket])
    · simp_all [findBucket]

theorem findBucket_none_iff {m : List (Hash × Bucket)} {h : Hash} :
    findBucket m h = none ↔ ∀ p ∈ m, p.1 ≠ h := by
  induction m with
  | nil => simp [findBucket]
  | cons p rest ih =>
    unfold findBucket
    rcases p with ⟨h', b⟩
    by_cases hh : h' = h <;> simp [hh, ih]

theorem findBucket_append_self {m : List (Hash × Bucket)} {h : Hash} (b : Bucket)
    (hf : findBucket m h = none) :
    findBucket (m ++ [(h, b)]) h = some b := by
  induction m with
  | nil => simp [findBucket]
  | cons p rest ih =>
    unfold findBucket at hf ⊢
    split at hf
    · exact absurd hf (by simp)
    · simp_all

theorem findBucket_update_self {m : List (Hash × Bucket)} {h : Hash} {b : Bucket}
    (b' : Bucket) (hf : findBucket m h = some b) :
    findBucket (updateBucket m h b') h = some b' := by
  induction m with
  | nil => simp [findBucket] at hf
  | cons p rest ih =>
    rcases p with ⟨h', bb⟩
    unfold findBucket at hf
    unfold updateBucket
    by_cases hh : h' = h
    · simp [hh, findBucket]
    · simp only [if_neg hh] at hf
      simp [hh, findBucket, ih hf]

theorem findBucket_update_ne {m : List (Hash × Bucket)} {h' h : Hash}
    (b' : Bucket) (hne : h' ≠ h) :
    findBucket (updateBucket m h' b') h = findBucket m h := by
  induction m with
  | nil => simp [updateBucket]
  | cons p rest ih =>
    rcases p with ⟨hp, bb⟩
    unfold updateBucket
    by_cases hh : hp = h'
    · subst hh
      simp [findBucket, hne]
    · simp [hh, findBucket, ih]

theorem updateBucket_map_fst (m : List (Hash × Bucket)) (h : Hash) (b' : Bucket) :
    (updateBucket m h b').map Prod.fst = m.map Prod.fst := by
  induction m with
  | nil => simp [updateBucket]
  | cons p rest ih =>
    rcases p with ⟨hp, bb⟩
    unfold updateBucket
    by_cases hh : hp = h <;> simp [hh, ih]

theorem findBucket_some_mem {m : List (Hash × Bucket)} {h : Hash} {b : Bucket}
    (hf : findBucket m h = some b) : (h, b) ∈ m := by
  induction m with
  | nil => simp [findBucket] at hf
  | cons p rest ih =>
    rcases p with ⟨hp, bb⟩
    unfold findBucket at hf
    split at hf
    · simp_all
    · simp [ih hf]

theorem mem_updateBucket {m : List (Hash × Bucket)} {h : Hash} {b' : Bucket}
    {p : Hash × Bucket} (hp : p ∈ updateBucket m h b') :
    p ∈ m ∨ p = (h, b') := by
  induction m with
  | nil => simp [updateBucket] at hp
  | cons q rest ih =>
    rcases q with ⟨hq, bb⟩
    unfold updateBucket at hp
    split at hp
    · rcases List.mem_cons.1 hp with h1 | h1
      · subst h1; right; simp_all
      · left; simp [h1]
    · rcases List.mem_cons.1 hp with h1 | h1
      · left; simp [h1]
      · rcases ih h1 with h2 | h2
        · left; simp [h2]
        · right; exact h2

theorem countSum_append (m : List (Hash × Bucket)) (h : Hash) (b : Bucket) :
    countSum (m ++ [(h, b)]) = countSum m + b.length := by
  induction m with
  | nil => simp [countSum]
  | cons p rest ih => simp [countSum] at ih ⊢; omega

theorem countSum_update {m : List (Hash × Bucket)} {h : Hash} {b : Bucket}
    (b' : Bucket) (hf : findBucket m h = some b) :
    countSum (updateBucket m h b') + b.length = countSum m + b'.length := by
  induction m with
  | nil => simp [findBucket] at hf
  | cons p rest ih =>
    rcases p with ⟨hp, bb⟩
    unfold findBucket at hf
    unfold updateBucket
    split at hf
    · rename_i hh
      rw [if_pos hh]
      simp at hf
      subst hf
      simp [countSum]
      omega
    · rename_i hh
      rw [if_neg hh]
      simp [countSum] at ih ⊢
      have := ih hf
      omega

/-! ## Bucket-scan lemmas -/

theorem scanBucket_none_iff {ops : DynOps} {key : ObjId} {b : Bucket} :
    (scanBucket ops key b).1 = none ↔ ∀ e ∈ b, keyMatch ops e.1 key = false := by
  induction b with
  | nil => simp [scanBucket]
  | cons e rest ih =>
    rcases e with ⟨ck, cv⟩
    unfold scanBucket
    by_cases h1 : ck = key
    · simp [h1, keyMatch]
    · by_cases h2 : ops.isEqualTo ck key <;> simp [h1, h2, keyMatch, ih]

theorem scanBucket_first_match {ops : DynOps} {key ck cv : ObjId}
    {b1 b2 : Bucket}
    (hpre : ∀ e ∈ b1, keyMatch ops e.1 key = false)
    (hm : keyMatch ops ck key = true) :
    (scanBucket ops key (b1 ++ (ck, cv) :: b2)).1 = some cv := by
  induction b1 with
  | nil =>
    unfold scanBucket
    rcases (by simpa [keyMatch] using hm :
        ck = key ∨ ops.isEqualTo ck key = true) with h | h
    · simp [h]
    · by_cases hid : ck = key
      · simp [hid]
      · simp [hid, h]
  | cons e rest ih =>
    rcases e with ⟨dk, dv⟩
    have hd : keyMatch ops dk key = false := hpre (dk, dv) (by simp)
    have hd1 : ¬dk = key := by
      intro hc
      simp [keyMatch, hc] at hd
    have hd2 : ops.isEqualTo dk key = false := by
      simpa [keyMatch, hd1] using hd
    rw [List.cons_append]
    unfold scanBucket
    simp only [if_neg hd1, hd2, if_neg Bool.false_ne_true]
    exact ih fun e he => hpre e (by simp [he])

theorem scanBucket_events (ops : DynOps) (key : ObjId) (b : Bucket) :
    ((scanBucket ops key b).2.all fun e => !e.isOwnership) = true := by
  induction b with
  | nil => simp [scanBucket]
  | cons e rest ih =>
    rcases e with ⟨ck, cv⟩
    unfold scanBucket
    by_cases h1 : ck = key
    · simp [h1, Event.isOwnership]
    · by_cases h2 : ops.isEqualTo ck key <;>
        simp_all [h1, h2, Event.isOwnership]

theorem overwriteScan_none_iff {ops : DynOps} {key value : ObjId} {b : Bucket} :
    (overwriteScan ops key value b).1 = none ↔
      ∀ e ∈ b, keyMatch ops e.1 key = false := by
  induction b with
  | nil => simp [overwriteScan]
  | cons e rest ih =>
    rcases e with ⟨ck, cv⟩
    unfold overwriteScan
    by_cases h1 : ck = key
    · simp [h1, keyMatch]
    · by_cases h2 : ops.isEqualTo ck key <;> simp [h1, h2, keyMatch, ih]

theorem overwriteScan_first_match {ops : DynOps} {key value ck cv : ObjId}
    {b1 b2 : Bucket}
    (hpre : ∀ e ∈ b1, keyMatch ops e.1 key = false)
    (hm : keyMatch ops ck key = true) :
    (overwriteScan ops key value (b1 ++ (ck, cv) :: b2)).1 =
      some (b1 ++ (ck, value) :: b2, cv) := by
  induction b1 with
  | nil =>
    unfold overwriteScan
    rcases (by simpa [keyMatch] using hm :
        ck = key ∨ ops.isEqualTo ck key = true) with h | h
    · simp [h]
    · by_cases hid : ck = key
      · simp [hid]
      · simp [hid, h]
  | cons e rest ih =>
    rcases e with ⟨dk, dv⟩
    have hd : keyMatch ops dk key = false := hpre (dk, dv) (by simp)
    have hd1 : ¬dk = key := by
      intro hc
      simp [keyMatch, hc] at hd
    have hd2 : ops.isEqualTo dk key = false := by
      simpa [keyMatch, hd1] using hd
    rw [List.cons_append]
    unfold overwriteScan
    simp only [if_neg hd1, hd2, if_neg Bool.false_ne_true]
    rw [ih fun e he => hpre e (by simp [he])]
    simp

theorem overwriteScan_keys {ops : DynOps} {key value : ObjId} {b b' : Bucket}
    {old : ObjId}
    (hs : (overwriteScan ops key value b).1 = some (b', old)) :
    b'.map Prod.fst = b.map Prod.fst := by
  induction b generalizing b' old with
  | nil => simp [overwriteScan] at hs
  | cons e rest ih =>
    rcases e with ⟨ck, cv⟩
    unfold overwriteScan at hs
    by_cases h1 : ck = key
    · rw [if_pos h1] at hs
      have hs2 : ((ck, value) :: rest, cv) = (b', old) := Option.some.inj hs
      have hb : (ck, value) :: rest = b' := congrArg Prod.fst hs2
      rw [← hb]
      simp
    · rw [if_neg h1] at hs
      by_cases h2 : ops.isEqualTo ck key
      · rw [if_pos h2] at hs
        have hs2 : ((ck, value) :: rest, cv) = (b', old) := Option.some.inj hs
        have hb : (ck, value) :: rest = b' := congrArg Prod.fst hs2
        rw [← hb]
        simp
      · rw [if_neg h2] at hs
        rcases hres : overwriteScan ops key value rest with ⟨r, tr⟩
        rw [hres] at hs
        rcases r with _ | ⟨rb, rold⟩
        · exact absurd (show (none : Option (Bucket × ObjId)) = some (b', old) from hs)
            (by simp)
        · have hs2 : ((ck, cv) :: rb, rold) = (b', old) :=
            Option.some.inj (show some ((ck, cv) :: rb, rold) = some (b', old) from hs)
          have hb : (ck, cv) :: rb = b' := congrArg Prod.fst hs2
          have ho : rold = old := congrArg Prod.snd hs2
          subst ho
          rw [← hb]
          have hr1 : (overwriteScan ops key value rest).1 = some (rb, rold) := by
            rw [hres]
          simp [ih hr1]

theorem overwriteScan_events (ops : DynOps) (key value : ObjId) (b : Bucket) :
    ((overwriteScan ops key value b).2.all fun e => !e.isOwnership) = true := by
  induction b with
  | nil => simp [overwriteScan]
  | cons e rest ih =>
    rcases e with ⟨ck, cv⟩
    unfold overwriteScan
    by_cases h1 : ck = key
    · simp [h1, Event.isOwnership]
    · by_cases h2 : ops.isEqualTo ck key <;>
        simp_all [h1, h2, Event.isOwnership]

theorem releasesOf_eq_nil_of_no_ownership {tr : List Event}
    (h : (tr.all fun e => !e.isOwnership) = true) : releasesOf tr = [] := by
  induction tr with
  | nil => rfl
  | cons e rest ih =>
    simp only [List.all_cons, Bool.and_eq_true] at h
    cases e <;> simp_all [releasesOf, Event.isOwnership]

theorem releasesOf_append (tr1 tr2 : List Event) :
    releasesOf (tr1 ++ tr2) = releasesOf tr1 ++ releasesOf tr2 := by
  simp [releasesOf]

theorem releasesOf_keyEvents (ops : DynOps) (c : Bool) (k : ObjId) :
    releasesOf (keyEvents ops c k) = [] := by
  cases c <;> simp [keyEvents, releasesOf]

theorem releasesOf_hash_retain (a b : ObjId) :
    releasesOf [Event.hashEv a, Event.retain b] = [] := rfl

theorem releasesOf_single_release (x : ObjId) :
    releasesOf [Event.release x] = [x] := rfl

/-! ## Defining equations of `insert`, by case -/

theorem insert_eq_of_no_bucket {ops : DynOps} {s : DictionaryHostObject}
    {k v : ObjId} {c : Bool}
    (hfb : findBucket s.map (ops.hash (effKey ops c k)) = none) :
    s.insert ops k v c =
      (⟨s.map ++ [(ops.hash (effKey ops c k), [(effKey ops c k, v)])], s.count + 1⟩,
        keyEvents ops c k ++ [Event.hashEv (effKey ops c k), Event.retain v]) := by
  unfold DictionaryHostObject.insert
  simp only [hfb]

theorem insert_eq_of_overwrite {ops : DynOps} {s : DictionaryHostObject}
    {k v : ObjId} {c : Bool} {b b' : Bucket} {old : ObjId} {tr : List Event}
    (hfb : findBucket s.map (ops.hash (effKey ops c k)) = some b)
    (hs : overwriteScan ops (effKey ops c k) v b = (some (b', old), tr)) :
    s.insert ops k v c =
      (⟨updateBucket s.map (ops.hash (effKey ops c k)) b', s.count⟩,
        (keyEvents ops c k ++ [Event.hashEv (effKey ops c k), Event.retain v]) ++
          tr ++ [Event.release old]) := by
  unfold DictionaryHostObject.insert
  simp only [hfb, hs]

theorem insert_eq_of_append {ops : DynOps} {s : DictionaryHostObject}
    {k v : ObjId} {c : Bool} {b : Bucket} {tr : List Event}
    (hfb : findBucket s.map (ops.hash (effKey ops c k)) = some b)
    (hs : overwriteScan ops (effKey ops c k) v b = (none, tr)) :
    s.insert ops k v c =
      (⟨updateBucket s.map (ops.hash (effKey ops c k)) (b ++ [(effKey ops c k, v)]),
          s.count + 1⟩,
        (keyEvents ops c k ++ [Event.hashEv (effKey ops c k), Event.retain v]) ++ tr) := by
  unfold DictionaryHostObject.insert
  simp only [hfb, hs]

/-! ## Where a value lives: `goodAt` / `StoredAt` -/

theorem goodAt_scan {ops : DynOps} {k' eff v : ObjId} {b : Bucket}
    (hg : goodAt ops k' eff v b) : (scanBucket ops k' b).1 = some v := by
  obtain ⟨b1, b2, rfl, hpre, hm⟩ := hg
  exact scanBucket_first_match hpre hm

theorem goodAt_append {ops : DynOps} {k' eff v : ObjId} {b : Bucket}
    (l : Bucket) (hg : goodAt ops k' eff v b) : goodAt ops k' eff v (b ++ l) := by
  obtain ⟨b1, b2, rfl, hpre, hm⟩ := hg
  exact ⟨b1, b2 ++ l, by simp, hpre, hm⟩

theorem overwriteScan_preserves_goodAt {ops : DynOps} {k2 v2 eff v k' : ObjId} :
    ∀ (b1 b2 b' : Bucket) (old : ObjId),
      (∀ e ∈ b1, keyMatch ops e.1 k' = false) →
      keyMatch ops eff k' = true →
      keyMatch ops eff k2 = false →
      (overwriteScan ops k2 v2 (b1 ++ (eff, v) :: b2)).1 = some (b', old) →
      goodAt ops k' eff v b' := by
  intro b1
  induction b1 with
  | nil =>
    intro b2 b' old _ hm hnc hs
    have hne : ¬eff = k2 := by
      intro hc
      simp [keyMatch, hc] at hnc
    have heq : ops.isEqualTo eff k2 = false := by
      simpa [keyMatch, hne] using hnc
    rw [List.nil_append] at hs
    unfold overwriteScan at hs
    simp only [if_neg hne, heq, if_neg Bool.false_ne_true] at hs
    rcases hres : overwriteScan ops k2 v2 b2 with ⟨r, tr⟩
    rw [hres] at hs
    rcases r with _ | ⟨rb, rold⟩
    · exact absurd (show (none : Option (Bucket × ObjId)) = some (b', old) from hs)
        (by simp)
    · have hs2 : ((eff, v) :: rb, rold) = (b', old) :=
        Option.some.inj (show some ((eff, v) :: rb, rold) = some (b', old) from hs)
      have hb : (eff, v) :: rb = b' := congrArg Prod.fst hs2
      exact ⟨[], rb, hb.symm, by simp, hm⟩
  | cons d b1' ih =>
    intro b2 b' old hpre hm hnc hs
    rcases d with ⟨dk, dv⟩
    have hdpre : keyMatch ops dk k' = false := hpre (dk, dv) (by simp)
    rw [List.cons_append] at hs
    unfold overwriteScan at hs
    by_cases h1 : dk = k2
    · rw [if_pos h1] at hs
      have hs2 : ((dk, v2) :: (b1' ++ (eff, v) :: b2), dv) = (b', old) :=
        Option.some.inj hs
      have hb : (dk, v2) :: (b1' ++ (eff, v) :: b2) = b' := congrArg Prod.fst hs2
      refine ⟨(dk, v2) :: b1', b2, hb.symm ▸ ?_, ?_, hm⟩
      · simp
      · intro e he
        rcases List.mem_cons.1 he with h | h
        · subst h; exact hdpre
        · exact hpre e (by simp [h])
    · rw [if_neg h1] at hs
      by_cases h2 : ops.isEqualTo dk k2
      · rw [if_pos h2] at hs
        have hs2 : ((dk, v2) :: (b1' ++ (eff, v) :: b2), dv) = (b', old) :=
          Option.some.inj hs
        have hb : (dk, v2) :: (b1' ++ (eff, v) :: b2) = b' := congrArg Prod.fst hs2
        refine ⟨(dk, v2) :: b1', b2, hb.symm ▸ ?_, ?_, hm⟩
        · simp
        · intro e he
          rcases List.mem_cons.1 he with h | h
          · subst h; exact hdpre
          · exact hpre e (by simp [h])
      · rw [if_neg h2] at hs
        rcases hres : overwriteScan ops k2 v2 (b1' ++ (eff, v) :: b2) with ⟨r, tr⟩
        rw [hres] at hs
        rcases r with _ | ⟨rb, rold⟩
        · exact absurd (show (none : Option (Bucket × ObjId)) = some (b', old) from hs)
            (by simp)
        · have hs2 : ((dk, dv) :: rb, rold) = (b', old) :=
            Option.some.inj (show some ((dk, dv) :: rb, rold) = some (b', old) from hs)
          have hb : (dk, dv) :: rb = b' := congrArg Prod.fst hs2
          have hr1 : (overwriteScan ops k2 v2 (b1' ++ (eff, v) :: b2)).1 = some (rb, rold) := by
            rw [hres]
          obtain ⟨c1, c2, hrb, hcpre, _⟩ :=
            ih b2 rb rold (fun e he => hpre e (by simp [he])) hm hnc hr1
          refine ⟨(dk, dv) :: c1, c2, ?_, ?_, hm⟩
          · rw [← hb, hrb]
            simp
          · intro e he
            rcases List.mem_cons.1 he with h | h
            · subst h; exact hdpre
            · exact hcpre e h

theorem StoredAt.lookup_eq {ops : DynOps} {s : DictionaryHostObject}
    {k' eff v : ObjId} (h : StoredAt ops s k' eff v) :
    (s.lookup ops k').1 = v := by
  obtain ⟨b, hb, hg⟩ := h
  unfold DictionaryHostObject.lookup
  rw [hb]
  rcases hsc : scanBucket ops k' b with ⟨r, tr⟩
  have hr : r = some v := by
    have := goodAt_scan hg
    rw [hsc] at this
    exact this
  simp [hsc, hr]

theorem StoredAt.insert_preserved {ops : DynOps} {s : DictionaryHostObject}
    {k' eff v k2 v2 : ObjId} {c2 : Bool}
    (h : StoredAt ops s k' eff v)
    (hnc : keyMatch ops eff (effKey ops c2 k2) = false) :
    StoredAt ops (s.insert ops k2 v2 c2).1 k' eff v := by
  obtain ⟨b, hb, hg⟩ := h
  rcases hfb : findBucket s.map (ops.hash (effKey ops c2 k2)) with _ | b0
  · rw [insert_eq_of_no_bucket hfb]
    exact ⟨b, findBucket_append_some _ hb, hg⟩
  · rcases hres : overwriteScan ops (effKey ops c2 k2) v2 b0 with ⟨r, tr⟩
    rcases r with _ | ⟨b', old⟩
    · rw [insert_eq_of_append hfb hres]
      by_cases hh : ops.hash (effKey ops c2 k2) = ops.hash k'
      · have hb0 : b0 = b := by
          rw [hh] at hfb
          exact Option.some.inj (hfb.symm.trans hb)
        subst hb0
        exact ⟨b0 ++ [(effKey ops c2 k2, v2)],
          by rw [hh] at hfb ⊢; exact findBucket_update_self _ hfb,
          goodAt_append _ hg⟩
      · exact ⟨b, by rw [findBucket_update_ne _ hh]; exact hb, hg⟩
    · rw [insert_eq_of_overwrite hfb hres]
      by_cases hh : ops.hash (effKey ops c2 k2) = ops.hash k'
      · have hb0 : b0 = b := by
          rw [hh] at hfb
          exact Option.some.inj (hfb.symm.trans hb)
        subst hb0
        obtain ⟨b1, b2, hdec, hpre, hm⟩ := hg
        have hs1 : (overwriteScan ops (effKey ops c2 k2) v2 (b1 ++ (eff, v) :: b2)).1 =
            some (b', old) := by
          rw [← hdec, hres]
        exact ⟨b', by rw [hh] at hfb ⊢; exact findBucket_update_self _ hfb,
          overwriteScan_preserves_goodAt b1 b2 b' old hpre hm hnc hs1⟩
      · exact ⟨b, by rw [findBucket_update_ne _ hh]; exact hb, hg⟩

/-- A fresh insert (no entry of the target bucket matches the stored key):
the entry is appended at the end of its bucket (creating the bucket if
needed), `count` increments, and the trace releases nothing. -/
theorem insert_fresh {ops : DynOps} {s : DictionaryHostObject}
    {k v : ObjId} {c : Bool}
    (hfresh : ∀ e ∈ bucketOf s (ops.hash (effKey ops c k)),
      keyMatch ops e.1 (effKey ops c k) = false) :
    findBucket (s.insert ops k v c).1.map (ops.hash (effKey ops c k)) =
        some (bucketOf s (ops.hash (effKey ops c k)) ++ [(effKey ops c k, v)]) ∧
      (s.insert ops k v c).1.count = s.count + 1 ∧
      releasesOf (s.insert ops k v c).2 = [] := by
  rcases hfb : findBucket s.map (ops.hash (effKey ops c k)) with _ | b
  · rw [insert_eq_of_no_bucket hfb]
    refine ⟨?_, rfl, ?_⟩
    · have : bucketOf s (ops.hash (effKey ops c k)) = [] := by
        simp [bucketOf, hfb]
      rw [this, List.nil_append]
      exact findBucket_append_self _ hfb
    · rw [releasesOf_append, releasesOf_keyEvents, releasesOf_hash_retain]
      simp
  · have hbeq : bucketOf s (ops.hash (effKey ops c k)) = b := by
      simp [bucketOf, hfb]
    rw [hbeq] at hfresh ⊢
    rcases hres : overwriteScan ops (effKey ops c k) v b with ⟨r, tr⟩
    have hr : r = none := by
      have h1 : (overwriteScan ops (effKey ops c k) v b).1 = none :=
        overwriteScan_none_iff.2 hfresh
      rw [hres] at h1
      exact h1
    subst hr
    rw [insert_eq_of_append hfb hres]
    refine ⟨findBucket_update_self _ hfb, rfl, ?_⟩
    have htr : (tr.all fun e => !e.isOwnership) = true := by
      have := overwriteScan_events ops (effKey ops c k) v b
      rw [hres] at this
      exact this
    rw [releasesOf_append, releasesOf_append, releasesOf_keyEvents,
      releasesOf_hash_retain, releasesOf_eq_nil_of_no_ownership htr]
    simp

/-- An overwriting insert (the target bucket's first entry matching the
stored key is `(ck, cv)`): that entry's value is replaced in place, all keys
and all other entries are untouched, `count` is unchanged, and the trace is
the key copy/retain, the hash dispatch, the value retain, some equality
dispatches, and exactly one release — of the old value. -/
theorem insert_overwrite {ops : DynOps} {s : DictionaryHostObject}
    {k v ck cv : ObjId} {c : Bool} {b1 b2 : Bucket}
    (hfb : findBucket s.map (ops.hash (effKey ops c k)) = some (b1 ++ (ck, cv) :: b2))
    (hpre : ∀ e ∈ b1, keyMatch ops e.1 (effKey ops c k) = false)
    (hm : keyMatch ops ck (effKey ops c k) = true) :
    findBucket (s.insert ops k v c).1.map (ops.hash (effKey ops c k)) =
        some (b1 ++ (ck, v) :: b2) ∧
      (s.insert ops k v c).1.count = s.count ∧
      releasesOf (s.insert ops k v c).2 = [cv] ∧
      ∃ etr, (s.insert ops k v c).2 =
          keyEvents ops c k ++ [Event.hashEv (effKey ops c k), Event.retain v] ++
            etr ++ [Event.release cv] ∧
          (etr.all fun e => !e.isOwnership) = true := by
  rcases hres : overwriteScan ops (effKey ops c k) v (b1 ++ (ck, cv) :: b2) with ⟨r, tr⟩
  have hr : r = some (b1 ++ (ck, v) :: b2, cv) := by
    have h1 := @overwriteScan_first_match ops (effKey ops c k) v ck cv b1 b2 hpre hm
    rw [hres] at h1
    exact h1
  subst hr
  rw [insert_eq_of_overwrite hfb hres]
  have htr : (tr.all fun e => !e.isOwnership) = true := by
    have := overwriteScan_events ops (effKey ops c k) v (b1 ++ (ck, cv) :: b2)
    rw [hres] at this
    exact this
  refine ⟨findBucket_update_self _ hfb, rfl, ?_, tr, by simp, htr⟩
  rw [releasesOf_append, releasesOf_append, releasesOf_append,
    releasesOf_keyEvents, releasesOf_hash_retain,
    releasesOf_eq_nil_of_no_ownership htr, releasesOf_single_release]
  simp

/-! ## Well-formedness of reachable states -/

theorem WF_empty (ops : DynOps) : WF ops emptyDict :=
  ⟨rfl, by simp [emptyDict], by simp [emptyDict], by simp [emptyDict]⟩

theorem WF_insert {ops : DynOps} {s : DictionaryHostObject} {k v : ObjId}
    {c : Bool} (hwf : WF ops s) : WF ops (s.insert ops k v c).1 := by
  rcases hfb : findBucket s.map (ops.hash (effKey ops c k)) with _ | b
  · rw [insert_eq_of_no_bucket hfb]
    refine ⟨?_, ?_, ?_, ?_⟩
    · simp only [countSum_append]
      simp [hwf.count_eq, countSum]
    · intro p hp e he
      rcases List.mem_append.1 hp with h | h
      · exact hwf.hashes p h e he
      · simp at h
        subst h
        simp at he
        subst he
        rfl
    · simp only [List.map_append]
      rw [List.pairwise_append]
      refine ⟨hwf.hash_nodup, by simp, ?_⟩
      intro a ha b hb
      simp at hb
      subst hb
      obtain ⟨p, hp, hpa⟩ := List.mem_map.1 ha
      exact hpa ▸ findBucket_none_iff.1 hfb p hp
    · intro p hp
      rcases List.mem_append.1 hp with h | h
      · exact hwf.bucket_nodup p h
      · simp at h
        subst h
        simp
  · have hmem : (ops.hash (effKey ops c k), b) ∈ s.map := findBucket_some_mem hfb
    rcases hres : overwriteScan ops (effKey ops c k) v b with ⟨r, tr⟩
    rcases r with _ | ⟨b', old⟩
    · -- append to an existing bucket
      rw [insert_eq_of_append hfb hres]
      have hnomatch : ∀ e ∈ b, keyMatch ops e.1 (effKey ops c k) = false := by
        have h1 : (overwriteScan ops (effKey ops c k) v b).1 = none := by rw [hres]
        exact overwriteScan_none_iff.1 h1
      refine ⟨?_, ?_, ?_, ?_⟩
      · have hcs := countSum_update (m := s.map) (b := b)
          (b ++ [(effKey ops c k, v)]) hfb
        simp only [List.length_append, List.length_cons, List.length_nil] at hcs
        simp only [hwf.count_eq]
        omega
      · intro p hp e he
        rcases mem_updateBucket hp with h | h
        · exact hwf.hashes p h e he
        · subst h
          rcases List.mem_append.1 he with h | h
          · exact hwf.hashes _ hmem e h
          · simp at h
            subst h
            rfl
      · rw [updateBucket_map_fst]
        exact hwf.hash_nodup
      · intro p hp
        rcases mem_updateBucket hp with h | h
        · exact hwf.bucket_nodup p h
        · subst h
          simp only [List.map_append]
          rw [List.pairwise_append]
          refine ⟨hwf.bucket_nodup _ hmem, by simp, ?_⟩
          intro a ha b2 hb2
          simp at hb2
          subst hb2
          obtain ⟨e, he, hea⟩ := List.mem_map.1 ha
          exact hea ▸ hnomatch e he
    · -- overwrite in an existing bucket
      rw [insert_eq_of_overwrite hfb hres]
      have hkeys : b'.map Prod.fst = b.map Prod.fst :=
        overwriteScan_keys (by rw [hres])
      refine ⟨?_, ?_, ?_, ?_⟩
      · have hcs := countSum_update (m := s.map) (b := b) b' hfb
        have hlen : b'.length = b.length := by
          have := congrArg List.length hkeys
          simpa using this
        simp only [hwf.count_eq]
        omega
      · intro p hp e he
        rcases mem_updateBucket hp with h | h
        · exact hwf.hashes p h e he
        · subst h
          have : e.1 ∈ b.map Prod.fst := by
            rw [← hkeys]
            exact List.mem_map_of_mem Prod.fst he
          obtain ⟨e', he', hee⟩ := List.mem_map.1 this
          exact hee ▸ hwf.hashes _ hmem e' he'
      · rw [updateBucket_map_fst]
        exact hwf.hash_nodup
      · intro p hp
        rcases mem_updateBucket hp with h | h
        · exact hwf.bucket_nodup p h
        · subst h
          simp only [hkeys]
          exact hwf.bucket_nodup _ hmem

theorem WF_insertMany {ops : DynOps} {s : DictionaryHostObject}
    (hwf : WF ops s) : ∀ L, WF ops (insertMany ops s L)
  | [] => hwf
  | (_, _, _) :: rest => WF_insertMany (WF_insert hwf) rest

/-! ## Flattened key/value/release lists -/

theorem keysFlat_length (m : List (Hash × Bucket)) :
    (keysFlat m).length = countSum m := by
  induction m with
  | nil => rfl
  | cons p rest ih => simp [keysFlat, countSum, ih]

theorem countSum_cons (p : Hash × Bucket) (rest : List (Hash × Bucket)) :
    countSum (p :: rest) = p.2.length + countSum rest := by
  simp [countSum]

theorem mem_keysFlat {m : List (Hash × Bucket)} {a : ObjId} :
    a ∈ keysFlat m ↔ ∃ p ∈ m, ∃ e ∈ p.2, e.1 = a := by
  induction m with
  | nil => simp [keysFlat]
  | cons p rest ih =>
    simp only [keysFlat, List.mem_append, ih, List.mem_cons, List.mem_map]
    constructor
    · rintro (⟨e, he, hea⟩ | ⟨q, hq, e, he, hea⟩)
      · exact ⟨p, Or.inl rfl, e, he, hea⟩
      · exact ⟨q, Or.inr hq, e, he, hea⟩
    · rintro ⟨q, hq | hq, e, he, hea⟩
      · exact Or.inl ⟨e, hq ▸ he, hea⟩
      · exact Or.inr ⟨q, hq, e, he, hea⟩

theorem keysFlat_pairwise {ops : DynOps} {m : List (Hash × Bucket)}
    (heq : ∀ a b, ops.isEqualTo a b = true → ops.hash a = ops.hash b)
    (hashes : ∀ p ∈ m, ∀ e ∈ p.2, ops.hash e.1 = p.1)
    (hnd : (m.map Prod.fst).Pairwise (fun a b => a ≠ b))
    (hbnd : ∀ p ∈ m, (p.2.map Prod.fst).Pairwise (fun a b => keyMatch ops a b = false)) :
    (keysFlat m).Pairwise (fun a b => keyMatch ops a b = false) := by
  induction m with
  | nil => simp [keysFlat]
  | cons p rest ih =>
    simp only [keysFlat]
    rw [List.pairwise_append]
    refine ⟨hbnd p (by simp), ?_, ?_⟩
    · refine ih (fun q hq => hashes q (by simp [hq]))
        ?_ (fun q hq => hbnd q (by simp [hq]))
      simp only [List.map_cons] at hnd
      exact (List.pairwise_cons.1 hnd).2
    · intro a ha b hb
      obtain ⟨e, he, hea⟩ := List.mem_map.1 ha
      obtain ⟨q, hq, f, hf, hfb⟩ := mem_keysFlat.1 hb
      have hha : ops.hash a = p.1 := hea ▸ hashes p (by simp) e he
      have hhb : ops.hash b = q.1 := hfb ▸ hashes q (by simp [hq]) f hf
      have hpq : p.1 ≠ q.1 := by
        simp only [List.map_cons] at hnd
        exact (List.pairwise_cons.1 hnd).1 q.1 (List.mem_map_of_mem Prod.fst hq)
      have hab : ops.hash a ≠ ops.hash b := by
        rw [hha, hhb]
        exact hpq
      have h1 : ¬a = b := fun hc => hab (by rw [hc])
      have h2 : ops.isEqualTo a b = false := by
        rcases hres : ops.isEqualTo a b with _ | _
        · rfl
        · exact absurd (heq a b hres) hab
      simp [keyMatch, h1, h2]

theorem foldr_pairs_perm (b : Bucket) (acc : List ObjId) :
    (b.foldr (fun e acc' => e.1 :: e.2 :: acc') acc).Perm
      (b.map Prod.fst ++ b.map Prod.snd ++ acc) := by
  induction b with
  | nil => simp
  | cons e b' ih =>
    simp only [List.foldr_cons, List.map_cons, List.cons_append, List.append_assoc]
    refine List.Perm.cons _ ?_
    refine List.Perm.trans (List.Perm.cons _ ih) ?_
    simp only [List.append_assoc]
    exact List.perm_middle.symm

theorem relFlat_releases (m : List (Hash × Bucket)) :
    releasesOf (relFlat m) = pairsOf m := by
  induction m with
  | nil => rfl
  | cons p rest ih =>
    simp only [relFlat, pairsOf]
    induction p.2 with
    | nil => simpa using ih
    | cons e b ihb =>
      simp only [List.foldr_cons]
      rw [show releasesOf (Event.release e.1 :: Event.release e.2 ::
          List.foldr (fun e acc => Event.release e.1 :: Event.release e.2 :: acc)
            (relFlat rest) b) =
          e.1 :: e.2 :: releasesOf (List.foldr
            (fun e acc => Event.release e.1 :: Event.release e.2 :: acc)
            (relFlat rest) b) from rfl]
      rw [ihb]

theorem relFlat_all_release (m : List (Hash × Bucket)) :
    ((relFlat m).all fun e =>
      match e with | Event.release _ => true | _ => false) = true := by
  induction m with
  | nil => rfl
  | cons p rest ih =>
    simp only [relFlat]
    induction p.2 with
    | nil => simpa using ih
    | cons e b ihb => simpa using ihb

theorem pairsOf_perm (m : List (Hash × Bucket)) :
    (pairsOf m).Perm (keysFlat m ++ valuesFlat m) := by
  induction m with
  | nil => simp [pairsOf, keysFlat, valuesFlat]
  | cons p rest ih =>
    simp only [pairsOf, keysFlat, valuesFlat]
    refine List.Perm.trans (foldr_pairs_perm p.2 (pairsOf rest)) ?_
    refine List.Perm.trans (List.Perm.append_left _ ih) ?_
    simp only [List.append_assoc]
    exact List.Perm.append_left _ (List.perm_append_comm_assoc _ _ _)

/-! ## Lookup results -/

theorem lookup_nil_of_no_bucket {ops : DynOps} {s : DictionaryHostObject}
    {k' : ObjId} (hfb : findBucket s.map (ops.hash k') = none) :
    (s.lookup ops k').1 = nil := by
  unfold DictionaryHostObject.lookup
  rw [hfb]

theorem lookup_nil_of_no_match {ops : DynOps} {s : DictionaryHostObject}
    {k' : ObjId} {b : Bucket} (hfb : findBucket s.map (ops.hash k') = some b)
    (hno : ∀ e ∈ b, keyMatch ops e.1 k' = false) :
    (s.lookup ops k').1 = nil := by
  unfold DictionaryHostObject.lookup
  rw [hfb]
  rcases hsc : scanBucket ops k' b with ⟨r, tr⟩
  have hr : r = none := by
    have h1 : (scanBucket ops k' b).1 = none := scanBucket_none_iff.2 hno
    rw [hsc] at h1
    exact h1
  simp [hsc, hr]

theorem lookup_eq_of_no_bucket {ops : DynOps} {s : DictionaryHostObject}
    {key : ObjId} (hfb : findBucket s.map (ops.hash key) = none) :
    s.lookup ops key = (nil, [Event.hashEv key]) := by
  unfold DictionaryHostObject.lookup
  rw [hfb]

theorem lookup_eq_of_bucket {ops : DynOps} {s : DictionaryHostObject}
    {key : ObjId} {b : Bucket} {r : Option ObjId} {tr : List Event}
    (hfb : findBucket s.map (ops.hash key) = some b)
    (hsc : scanBucket ops key b = (r, tr)) :
    s.lookup ops key = (r.getD nil, Event.hashEv key :: tr) := by
  unfold DictionaryHostObject.lookup
  rw [hfb]
  show (match scanBucket ops key b with
    | (r, tr) => (r.getD nil, Event.hashEv key :: tr)) =
    (r.getD nil, Event.hashEv key :: tr)
  rw [hsc]

/-- A fresh insert establishes `StoredAt` for every probe key `k'` that the
stored key matches, provided `k'` hashes to the stored key's bucket and no
pre-existing entry of that bucket matches `k'`. -/
theorem insert_establishes_StoredAt {ops : DynOps} {s : DictionaryHostObject}
    {k v k' : ObjId} {c : Bool}
    (hhash : ops.hash k' = ops.hash (effKey ops c k))
    (hmatch : keyMatch ops (effKey ops c k) k' = true)
    (hfresh : ∀ e ∈ bucketOf s (ops.hash (effKey ops c k)),
      keyMatch ops e.1 (effKey ops c k) = false ∧ keyMatch ops e.1 k' = false) :
    StoredAt ops (s.insert ops k v c).1 k' (effKey ops c k) v := by
  obtain ⟨hfb', _, _⟩ := insert_fresh (s := s) (v := v)
    (fun e he => (hfresh e he).1)
  exact ⟨bucketOf s (ops.hash (effKey ops c k)) ++ [(effKey ops c k, v)],
    by rw [hhash]; exact hfb',
    ⟨bucketOf s (ops.hash (effKey ops c k)), [], by simp,
      fun e he => (hfresh e he).2, hmatch⟩⟩

/-- `StoredAt` persists through any sequence of further inserts none of whose
(effective) keys matches the stored key. -/
theorem StoredAt_insertMany {ops : DynOps} {k' eff v : ObjId} :
    ∀ (L : List (ObjId × ObjId × Bool)) (s : DictionaryHostObject),
      StoredAt ops s k' eff v →
      (∀ t ∈ L, keyMatch ops eff (effKey ops t.2.2 t.1) = false) →
      StoredAt ops (insertMany ops s L) k' eff v
  | [], _, h, _ => h
  | (k2, v2, c2) :: rest, s, h, hL =>
    StoredAt_insertMany rest _
      (h.insert_preserved (hL (k2, v2, c2) (by simp)))
      (fun t ht => hL t (by simp [ht]))

/-! ## Claim theorems -/

/-- C1: the claim says batch enumeration to exhaustion produces exactly
`count` keys, one per live entry. The code iterates `self.map.iter()` —
the *buckets* — and extracts only `object.get(0).unwrap().0`, the first
entry's key of each bucket, so entries sharing a hash bucket are dropped.
Evidence: `sCollide` holds 2 entries in one bucket but the enumeration
produces only `[1]` (total 1 ≠ count 2); the collision-free 5-entry case of
the claim does hold (total 5, no duplicates, terminal call returns 0). -/
theorem C1_fast_enumeration_drops_collision_entries :
    sCollide.count = 2 ∧
    enumChunks sCollide 2 4 0 = [1] ∧
    sFive.count = 5 ∧
    enumChunks sFive 2 8 0 = [1, 2, 3, 4, 5] ∧
    (countByEnumeratingWithState sFive 5 2).2.2 = 0 := by
  decide

/-- C2 counterexample: the claim says an overwriting `insert` with
`copy_key = true` makes *no* copy of the new key argument. In the code the
copy happens unconditionally before the bucket scan: inserting key 1 twice
with `copy_key = true` under `opsCopying` (copy of 1 is the fresh handle
101) takes the overwrite path (count unchanged) and the trace nevertheless
contains the copy event for the new key. -/
theorem C2_counterexample_copy_is_made :
    keyMatch opsCopying 101 (effKey opsCopying true 1) = true ∧
    ((emptyDict.insert opsCopying 1 11 true).1.insert opsCopying 1 12 true).1.count =
      (emptyDict.insert opsCopying 1 11 true).1.count ∧
    Event.copyEv 1 101 ∈
      ((emptyDict.insert opsCopying 1 11 true).1.insert opsCopying 1 12 true).2 := by
  decide

/-- C2 amended: on the overwrite path of a `copy_key = true` insert, a copy
of the new key argument IS made (the copy is taken unconditionally before
the bucket scan) and is then neither stored nor released; the existing
entry's old key object is kept — the stored keys are unchanged, only the
matched entry's value is replaced — `count` is unchanged, and the only
release issued is of the old value. -/
theorem C2_overwrite_keeps_old_key_copy_leaked {ops : DynOps}
    {s : DictionaryHostObject} {k v ck cv : ObjId} {b1 b2 : Bucket}
    (hfb : findBucket s.map (ops.hash (effKey ops true k)) =
      some (b1 ++ (ck, cv) :: b2))
    (hpre : ∀ e ∈ b1, keyMatch ops e.1 (effKey ops true k) = false)
    (hm : keyMatch ops ck (effKey ops true k) = true) :
    Event.copyEv k (ops.copy k) ∈ (s.insert ops k v true).2 ∧
    findBucket (s.insert ops k v true).1.map (ops.hash (effKey ops true k)) =
      some (b1 ++ (ck, v) :: b2) ∧
    (s.insert ops k v true).1.count = s.count ∧
    releasesOf (s.insert ops k v true).2 = [cv] := by
  obtain ⟨hb, hc, hrel, etr, htr, _⟩ := insert_overwrite hfb hpre hm
  refine ⟨?_, hb, hc, hrel⟩
  rw [htr]
  simp [keyEvents]

/-- Witness for the amended C2 at a concrete input: key 1 with `copy_key`
true overwrites the entry stored under its copy 101. -/
theorem C2_overwrite_witness :
    (findBucket (emptyDict.insert opsCopying 1 11 true).1.map
        (opsCopying.hash (effKey opsCopying true 1)) =
      some ([] ++ (101, 11) :: []) ∧
      keyMatch opsCopying 101 (effKey opsCopying true 1) = true) ∧
    (Event.copyEv 1 (opsCopying.copy 1) ∈
        ((emptyDict.insert opsCopying 1 11 true).1.insert opsCopying 1 12 true).2 ∧
      findBucket ((emptyDict.insert opsCopying 1 11 true).1.insert
          opsCopying 1 12 true).1.map (opsCopying.hash (effKey opsCopying true 1)) =
        some ([] ++ (101, 12) :: []) ∧
      ((emptyDict.insert opsCopying 1 11 true).1.insert opsCopying 1 12 true).1.count =
        (emptyDict.insert opsCopying 1 11 true).1.count ∧
      releasesOf ((emptyDict.insert opsCopying 1 11 true).1.insert
          opsCopying 1 12 true).2 = [11]) :=
  ⟨⟨by decide, by decide⟩,
    C2_overwrite_keeps_old_key_copy_leaked (by decide) (by decide) (by decide)⟩

/-- C3: inserting `(k, v1)` then `(k, v2)` (the stored keys being equal
under the match predicate, hashing into the same bucket, against a bucket
with no prior matching entry) leaves `count` unchanged at the second
insert, makes `lookup k` return `v2`, and the second insert's trace
releases exactly one handle — the previously stored `v1`. -/
theorem C3_overwrite_count_lookup_release {ops : DynOps}
    {s : DictionaryHostObject} {k v1 v2 : ObjId} {c1 c2 : Bool}
    (hh2 : ops.hash (effKey ops c2 k) = ops.hash (effKey ops c1 k))
    (hhk : ops.hash k = ops.hash (effKey ops c1 k))
    (hm2 : keyMatch ops (effKey ops c1 k) (effKey ops c2 k) = true)
    (hmk : keyMatch ops (effKey ops c1 k) k = true)
    (hfresh : ∀ e ∈ bucketOf s (ops.hash (effKey ops c1 k)),
      keyMatch ops e.1 (effKey ops c1 k) = false ∧
      keyMatch ops e.1 (effKey ops c2 k) = false ∧
      keyMatch ops e.1 k = false) :
    ((s.insert ops k v1 c1).1.insert ops k v2 c2).1.count =
        (s.insert ops k v1 c1).1.count ∧
    (((s.insert ops k v1 c1).1.insert ops k v2 c2).1.lookup ops k).1 = v2 ∧
    releasesOf ((s.insert ops k v1 c1).1.insert ops k v2 c2).2 = [v1] := by
  obtain ⟨hfb1, _, _⟩ := insert_fresh (s := s) (v := v1)
    (fun e he => (hfresh e he).1)
  have hfb1' : findBucket (s.insert ops k v1 c1).1.map
      (ops.hash (effKey ops c2 k)) =
      some (bucketOf s (ops.hash (effKey ops c1 k)) ++
        (effKey ops c1 k, v1) :: []) := by
    rw [hh2]
    exact hfb1
  obtain ⟨hfb2, hc2, hrel2, _⟩ := insert_overwrite (v := v2) hfb1'
    (fun e he => (hfresh e he).2.1) hm2
  refine ⟨hc2, ?_, hrel2⟩
  have hst : StoredAt ops ((s.insert ops k v1 c1).1.insert ops k v2 c2).1 k
      (effKey ops c1 k) v2 := by
    refine ⟨bucketOf s (ops.hash (effKey ops c1 k)) ++
      (effKey ops c1 k, v2) :: [], ?_, ?_⟩
    · rw [show ops.hash k = ops.hash (effKey ops c2 k) from hhk.trans hh2.symm]
      exact hfb2
    · exact ⟨bucketOf s (ops.hash (effKey ops c1 k)), [], rfl,
        fun e he => (hfresh e he).2.2, hmk⟩
  exact hst.lookup_eq

/-- Witness for C3 at a concrete input: key 3 inserted twice (no copying)
into the empty dictionary under identity hashing. -/
theorem C3_overwrite_witness :
    ((emptyDict.insert opsIdHash 3 11 false).1.insert opsIdHash 3 12 false).1.count =
        (emptyDict.insert opsIdHash 3 11 false).1.count ∧
    (((emptyDict.insert opsIdHash 3 11 false).1.insert opsIdHash 3 12 false).1.lookup
        opsIdHash 3).1 = 12 ∧
    releasesOf ((emptyDict.insert opsIdHash 3 11 false).1.insert
        opsIdHash 3 12 false).2 = [11] :=
  C3_overwrite_count_lookup_release (by decide) (by decide) (by decide)
    (by decide) (by decide)

/-- C4: after `insert(k, v, c)` the lookup of any probe key `k'` that the
stored (effective) key matches — by identity or dynamic equality — and that
hashes into the stored key's bucket returns `v` (no earlier entry of the
bucket matching either key), and this persists through any further inserts
whose effective keys do not match the stored key; for a probe key whose
hash has no bucket, or whose bucket contains no matching entry, `lookup`
returns the absent sentinel `nil`. -/
theorem C4_lookup_after_insert :
    (∀ (ops : DynOps) (s : DictionaryHostObject) (k v k' : ObjId) (c : Bool)
        (L : List (ObjId × ObjId × Bool)),
      ops.hash k' = ops.hash (effKey ops c k) →
      keyMatch ops (effKey ops c k) k' = true →
      (∀ e ∈ bucketOf s (ops.hash (effKey ops c k)),
        keyMatch ops e.1 (effKey ops c k) = false ∧ keyMatch ops e.1 k' = false) →
      (∀ t ∈ L, keyMatch ops (effKey ops c k) (effKey ops t.2.2 t.1) = false) →
      ((insertMany ops (s.insert ops k v c).1 L).lookup ops k').1 = v) ∧
    (∀ (ops : DynOps) (s : DictionaryHostObject) (k' : ObjId),
      findBucket s.map (ops.hash k') = none → (s.lookup ops k').1 = nil) ∧
    (∀ (ops : DynOps) (s : DictionaryHostObject) (k' : ObjId) (b : Bucket),
      findBucket s.map (ops.hash k') = some b →
      (∀ e ∈ b, keyMatch ops e.1 k' = false) →
      (s.lookup ops k').1 = nil) := by
  refine ⟨?_, ?_, ?_⟩
  · intro ops s k v k' c L hh hm hfresh hL
    exact (StoredAt_insertMany L _
      (insert_establishes_StoredAt hh hm hfresh) hL).lookup_eq
  · intro ops s k' hfb
    exact lookup_nil_of_no_bucket hfb
  · intro ops s k' b hfb hno
    exact lookup_nil_of_no_match hfb hno

/-- Witness for C4: key 1 inserted into the empty dictionary stays
retrievable past a later insert of key 2; lookups of an unstored key return
`nil` both with no bucket (empty dictionary) and with a non-matching bucket
(`sCollide` probed with key 3). -/
theorem C4_lookup_after_insert_witness :
    ((insertMany opsIdHash (emptyDict.insert opsIdHash 1 11 false).1
        [(2, 12, false)]).lookup opsIdHash 1).1 = 11 ∧
    (emptyDict.lookup opsIdHash 9).1 = nil ∧
    (sCollide.lookup opsConst 3).1 = nil :=
  ⟨C4_lookup_after_insert.1 opsIdHash emptyDict 1 11 1 false [(2, 12, false)]
      (by decide) (by decide) (by decide) (by decide),
    C4_lookup_after_insert.2.1 opsIdHash emptyDict 9 (by decide),
    C4_lookup_after_insert.2.2 opsConst sCollide 3 [(1, 11), (2, 12)]
      (by decide) (by decide)⟩

/-- C5: for every state reachable by a sequence of inserts from the empty
container (under a dynamic equality that respects the hash, as the
`NSObject` contract requires), `count` equals the sum of the bucket
lengths, which equals the number of stored keys, and the stored keys are
pairwise distinct under the match predicate — so `count` is exactly the
number of distinct-by-equality keys present. -/
theorem C5_count_invariant (ops : DynOps) (L : List (ObjId × ObjId × Bool))
    (heq : ∀ a b, ops.isEqualTo a b = true → ops.hash a = ops.hash b) :
    (insertMany ops emptyDict L).count =
        countSum (insertMany ops emptyDict L).map ∧
    (insertMany ops emptyDict L).count =
        (insertMany ops emptyDict L).iter_keys.length ∧
    (insertMany ops emptyDict L).iter_keys.Pairwise
      (fun a b => keyMatch ops a b = false) := by
  have hwf := WF_insertMany (WF_empty ops) L
  refine ⟨hwf.count_eq, ?_, ?_⟩
  · rw [hwf.count_eq, DictionaryHostObject.iter_keys, keysFlat_length]
  · exact keysFlat_pairwise heq hwf.hashes hwf.hash_nodup hwf.bucket_nodup

/-- Witness for C5: three inserts with one overwrite under identity
hashing (dynamic equality constantly false respects any hash). -/
theorem C5_count_invariant_witness :
    (∀ a b, opsIdHash.isEqualTo a b = true → opsIdHash.hash a = opsIdHash.hash b) ∧
    ((insertMany opsIdHash emptyDict [(1, 11, false), (2, 12, false), (1, 13, false)]).count =
        countSum (insertMany opsIdHash emptyDict
          [(1, 11, false), (2, 12, false), (1, 13, false)]).map ∧
      (insertMany opsIdHash emptyDict [(1, 11, false), (2, 12, false), (1, 13, false)]).count =
        (insertMany opsIdHash emptyDict
          [(1, 11, false), (2, 12, false), (1, 13, false)]).iter_keys.length ∧
      (insertMany opsIdHash emptyDict
          [(1, 11, false), (2, 12, false), (1, 13, false)]).iter_keys.Pairwise
        (fun a b => keyMatch opsIdHash a b = false)) :=
  have heq : ∀ a b, opsIdHash.isEqualTo a b = true →
      opsIdHash.hash a = opsIdHash.hash b := fun a b h => by
    exact absurd h (by simp [opsIdHash])
  ⟨heq, C5_count_invariant opsIdHash
    [(1, 11, false), (2, 12, false), (1, 13, false)] heq⟩

/-- C6: in every state reachable by inserts from the empty container, no
bucket holds two entries whose keys match (identity or dynamic equality) —
and whenever an insert appends (count grows), no entry of the pre-existing
target bucket matched the stored key, i.e. appending only happens when the
scan finds no equal key. -/
theorem C6_no_duplicate_keys_in_bucket :
    (∀ (ops : DynOps) (L : List (ObjId × ObjId × Bool)) (p : Hash × Bucket),
      p ∈ (insertMany ops emptyDict L).map →
      (p.2.map Prod.fst).Pairwise (fun a b => keyMatch ops a b = false)) ∧
    (∀ (ops : DynOps) (s : DictionaryHostObject) (k v : ObjId) (c : Bool),
      (s.insert ops k v c).1.count = s.count + 1 →
      ∀ e ∈ bucketOf s (ops.hash (effKey ops c k)),
        keyMatch ops e.1 (effKey ops c k) = false) := by
  refine ⟨?_, ?_⟩
  · intro ops L p hp
    exact (WF_insertMany (WF_empty ops) L).bucket_nodup p hp
  · intro ops s k v c hc e he
    rcases hfb : findBucket s.map (ops.hash (effKey ops c k)) with _ | b
    · exact absurd he (by simp [bucketOf, hfb])
    · have hbeq : bucketOf s (ops.hash (effKey ops c k)) = b := by
        simp [bucketOf, hfb]
      rcases hres : overwriteScan ops (effKey ops c k) v b with ⟨r, tr⟩
      rcases r with _ | ⟨b', old⟩
      · have h1 : (overwriteScan ops (effKey ops c k) v b).1 = none := by
          rw [hres]
        exact overwriteScan_none_iff.1 h1 e (hbeq ▸ he)
      · rw [insert_eq_of_overwrite hfb hres] at hc
        simp at hc

/-- Witness for C6: the collision bucket of `sCollide` has pairwise
non-matching keys, and an appending insert into the empty dictionary has a
(vacuously) match-free target bucket. -/
theorem C6_no_duplicate_keys_witness :
    ((7, [(1, 11), (2, 12)]) ∈ sCollide.map ∧
      (([(1, 11), (2, 12)] : Bucket).map Prod.fst).Pairwise
        (fun a b => keyMatch opsConst a b = false)) ∧
    ((emptyDict.insert opsIdHash 4 14 false).1.count = emptyDict.count + 1 ∧
      ∀ e ∈ bucketOf emptyDict (opsIdHash.hash (effKey opsIdHash false 4)),
        keyMatch opsIdHash e.1 (effKey opsIdHash false 4) = false) :=
  ⟨⟨by decide,
      C6_no_duplicate_keys_in_bucket.1 opsConst [(1, 11, false), (2, 12, false)]
        (7, [(1, 11), (2, 12)]) (by decide)⟩,
    ⟨by decide,
      C6_no_duplicate_keys_in_bucket.2 opsIdHash emptyDict 4 14 false (by decide)⟩⟩

/-- C7: two keys with the same hash but unequal under the match predicate
are both stored in the shared bucket in insertion order and independently
retrievable; overwriting the first afterwards updates its value while
leaving the second retrievable. -/
theorem C7_collision_tolerance {ops : DynOps} {s : DictionaryHostObject}
    {k1 k2 k3 v1 v2 v3 : ObjId} {c1 c2 c3 : Bool}
    (hh2 : ops.hash (effKey ops c2 k2) = ops.hash (effKey ops c1 k1))
    (hh3 : ops.hash (effKey ops c3 k3) = ops.hash (effKey ops c1 k1))
    (hhk1 : ops.hash k1 = ops.hash (effKey ops c1 k1))
    (hhk2 : ops.hash k2 = ops.hash (effKey ops c1 k1))
    (hm1 : keyMatch ops (effKey ops c1 k1) k1 = true)
    (hm2 : keyMatch ops (effKey ops c2 k2) k2 = true)
    (hd : keyMatch ops (effKey ops c1 k1) (effKey ops c2 k2) = false)
    (hcross : keyMatch ops (effKey ops c1 k1) k2 = false)
    (hm3 : keyMatch ops (effKey ops c1 k1) (effKey ops c3 k3) = true)
    (hfresh : ∀ e ∈ bucketOf s (ops.hash (effKey ops c1 k1)),
      keyMatch ops e.1 (effKey ops c1 k1) = false ∧
      keyMatch ops e.1 (effKey ops c2 k2) = false ∧
      keyMatch ops e.1 (effKey ops c3 k3) = false ∧
      keyMatch ops e.1 k1 = false ∧
      keyMatch ops e.1 k2 = false) :
    ((((s.insert ops k1 v1 c1).1.insert ops k2 v2 c2).1.lookup ops k1).1 = v1 ∧
      (((s.insert ops k1 v1 c1).1.insert ops k2 v2 c2).1.lookup ops k2).1 = v2 ∧
      bucketOf ((s.insert ops k1 v1 c1).1.insert ops k2 v2 c2).1
          (ops.hash (effKey ops c1 k1)) =
        bucketOf s (ops.hash (effKey ops c1 k1)) ++
          [(effKey ops c1 k1, v1), (effKey ops c2 k2, v2)]) ∧
    (((((s.insert ops k1 v1 c1).1.insert ops k2 v2 c2).1.insert
        ops k3 v3 c3).1.lookup ops k1).1 = v3 ∧
      ((((s.insert ops k1 v1 c1).1.insert ops k2 v2 c2).1.insert
          ops k3 v3 c3).1.lookup ops k2).1 = v2) := by
  obtain ⟨hfb1, _, _⟩ := insert_fresh (s := s) (v := v1)
    (fun e he => (hfresh e he).1)
  have hbuck1 : bucketOf (s.insert ops k1 v1 c1).1
      (ops.hash (effKey ops c2 k2)) =
      bucketOf s (ops.hash (effKey ops c1 k1)) ++ [(effKey ops c1 k1, v1)] := by
    rw [hh2]
    simp [bucketOf, hfb1]
  obtain ⟨hfb2, _, _⟩ := insert_fresh (s := (s.insert ops k1 v1 c1).1) (v := v2)
    (fun e he => by
      rw [hbuck1] at he
      rcases List.mem_append.1 he with h | h
      · exact (hfresh e h).2.1
      · simp at h
        subst h
        exact hd)
  rw [hbuck1] at hfb2
  have hfb2' : findBucket ((s.insert ops k1 v1 c1).1.insert ops k2 v2 c2).1.map
      (ops.hash (effKey ops c1 k1)) =
      some (bucketOf s (ops.hash (effKey ops c1 k1)) ++
        (effKey ops c1 k1, v1) :: (effKey ops c2 k2, v2) :: []) := by
    conv_lhs => rw [← hh2]
    rw [hfb2]
    simp
  refine ⟨⟨?_, ?_, ?_⟩, ?_⟩
  · refine @StoredAt.lookup_eq ops _ k1 (effKey ops c1 k1) v1
      ⟨bucketOf s (ops.hash (effKey ops c1 k1)) ++
          (effKey ops c1 k1, v1) :: (effKey ops c2 k2, v2) :: [],
        by rw [hhk1]; exact hfb2', ?_⟩
    exact ⟨bucketOf s (ops.hash (effKey ops c1 k1)),
      (effKey ops c2 k2, v2) :: [], rfl,
      fun e he => (hfresh e he).2.2.2.1, hm1⟩
  · refine @StoredAt.lookup_eq ops _ k2 (effKey ops c2 k2) v2
      ⟨bucketOf s (ops.hash (effKey ops c1 k1)) ++
          (effKey ops c1 k1, v1) :: (effKey ops c2 k2, v2) :: [],
        by rw [hhk2]; exact hfb2', ?_⟩
    refine ⟨bucketOf s (ops.hash (effKey ops c1 k1)) ++ [(effKey ops c1 k1, v1)],
      [], by simp, ?_, hm2⟩
    intro e he
    rcases List.mem_append.1 he with h | h
    · exact (hfresh e h).2.2.2.2
    · simp at h
      subst h
      exact hcross
  · simp [bucketOf, hfb2']
  · have hfb2'' : findBucket ((s.insert ops k1 v1 c1).1.insert ops k2 v2 c2).1.map
        (ops.hash (effKey ops c3 k3)) =
        some (bucketOf s (ops.hash (effKey ops c1 k1)) ++
          (effKey ops c1 k1, v1) :: (effKey ops c2 k2, v2) :: []) := by
      rw [hh3]
      exact hfb2'
    obtain ⟨hfb3, _, _, _⟩ := insert_overwrite (v := v3) hfb2''
      (fun e he => (hfresh e he).2.2.1) hm3
    constructor
    · refine @StoredAt.lookup_eq ops _ k1 (effKey ops c1 k1) v3
        ⟨bucketOf s (ops.hash (effKey ops c1 k1)) ++
            (effKey ops c1 k1, v3) :: (effKey ops c2 k2, v2) :: [],
          by
            rw [hhk1]
            conv_lhs => rw [← hh3]
            exact hfb3, ?_⟩
      exact ⟨bucketOf s (ops.hash (effKey ops c1 k1)),
        (effKey ops c2 k2, v2) :: [], rfl,
        fun e he => (hfresh e he).2.2.2.1, hm1⟩
    · refine @StoredAt.lookup_eq ops _ k2 (effKey ops c2 k2) v2
        ⟨bucketOf s (ops.hash (effKey ops c1 k1)) ++
            (effKey ops c1 k1, v3) :: (effKey ops c2 k2, v2) :: [],
          by
            rw [hhk2]
            conv_lhs => rw [← hh3]
            exact hfb3, ?_⟩
      refine ⟨bucketOf s (ops.hash (effKey ops c1 k1)) ++ [(effKey ops c1 k1, v3)],
        [], by simp, ?_, hm2⟩
      intro e he
      rcases List.mem_append.1 he with h | h
      · exact (hfresh e h).2.2.2.2
      · simp at h
        subst h
        exact hcross

/-- Witness for C7: keys 1 and 2 collide under the constant hash, key 1 is
then overwritten via a third insert of key 1. -/
theorem C7_collision_tolerance_witness :
    ((((emptyDict.insert opsConst 1 11 false).1.insert opsConst 2 12 false).1.lookup
          opsConst 1).1 = 11 ∧
      (((emptyDict.insert opsConst 1 11 false).1.insert opsConst 2 12 false).1.lookup
          opsConst 2).1 = 12 ∧
      bucketOf ((emptyDict.insert opsConst 1 11 false).1.insert opsConst 2 12 false).1
          (opsConst.hash (effKey opsConst false 1)) =
        bucketOf emptyDict (opsConst.hash (effKey opsConst false 1)) ++
          [(effKey opsConst false 1, 11), (effKey opsConst false 2, 12)]) ∧
    (((((emptyDict.insert opsConst 1 11 false).1.insert opsConst 2 12 false).1.insert
          opsConst 1 13 false).1.lookup opsConst 1).1 = 13 ∧
      ((((emptyDict.insert opsConst 1 11 false).1.insert opsConst 2 12 false).1.insert
          opsConst 1 13 false).1.lookup opsConst 2).1 = 12) :=
  C7_collision_tolerance (by decide) (by decide) (by decide) (by decide)
    (by decide) (by decide) (by decide) (by decide) (by decide) (by decide)

/-- C8: `DictionaryHostObject::release` issues release events only, and the
released handles are exactly one per live key plus one per live value — a
permutation of the stored keys and values, with matching multiplicities —
whatever the collision distribution. -/
theorem C8_release_all_exact (s : DictionaryHostObject) :
    (releasesOf s.release).Perm (s.iter_keys ++ s.iter_values) ∧
    (s.release.all fun e =>
      match e with | Event.release _ => true | _ => false) = true ∧
    ∀ x : ObjId, (releasesOf s.release).count x =
      (s.iter_keys).count x + (s.iter_values).count x := by
  have hperm : (releasesOf s.release).Perm (s.iter_keys ++ s.iter_values) := by
    rw [DictionaryHostObject.release, relFlat_releases]
    exact pairsOf_perm s.map
  refine ⟨hperm, relFlat_all_release s.map, ?_⟩
  intro x
  rw [hperm.count_eq, List.count_append]

/-- C9: `lookup` is a pure read: it takes the container by shared reference
(state is an input only in the embedding) and its event trace contains no
retain, release, or copy — no ownership mutation — even though it begins
with the dynamic `hash` dispatch on the probed key (and may go on to issue
`isEqualTo:` dispatches). -/
theorem C9_lookup_pure (ops : DynOps) (s : DictionaryHostObject) (key : ObjId) :
    ((s.lookup ops key).2.all fun e => !e.isOwnership) = true ∧
    (s.lookup ops key).2.head? = some (Event.hashEv key) := by
  rcases hfb : findBucket s.map (ops.hash key) with _ | b
  · rw [lookup_eq_of_no_bucket hfb]
    exact ⟨rfl, rfl⟩
  · rcases hsc : scanBucket ops key b with ⟨r, tr⟩
    rw [lookup_eq_of_bucket hfb hsc]
    refine ⟨?_, rfl⟩
    have h1 := scanBucket_events ops key b
    rw [hsc] at h1
    simpa [Event.isOwnership] using h1

/-- C10: `objectForKey:` (and `setObject:forKey:` / `setValue:forKey:`)
take the host object out of the registry before operating — so during the
key's dynamic hash/equality callbacks the registry slot holds an empty
default `DictionaryHostObject` — and write it back before returning: after
`objectForKey:` the registry equals its pre-call state, and the setters
return the registry updated with the inserted-into host object. -/
theorem C10_registry_take_and_restore :
    (∀ (reg : Registry) (this : ObjId), (takeHost reg this).2 this = emptyDict) ∧
    (∀ (ops : DynOps) (reg : Registry) (this key : ObjId),
      (objectForKey ops reg this key).1 = reg) ∧
    (∀ (ops : DynOps) (reg : Registry) (this anObject key : ObjId),
      anObject ≠ nil → key ≠ nil →
      setObjectForKey ops reg this anObject key =
        some (putHost reg this ((reg this).insert ops key anObject false).1)) ∧
    (∀ (ops : DynOps) (reg : Registry) (this value key : ObjId),
      key ≠ nil →
      setValueForKey ops reg this value key =
        some (putHost reg this ((reg this).insert ops key value false).1)) := by
  refine ⟨?_, ?_, ?_, ?_⟩
  · intro reg this
    simp [takeHost]
  · intro ops reg this key
    funext x
    by_cases hx : x = this <;>
      simp [objectForKey, takeHost, putHost, hx]
  · intro ops reg this anObject key hno hnk
    rw [setObjectForKey, if_neg (not_or.mpr ⟨hno, hnk⟩)]
    show some (putHost (takeHost reg this).2 this
        (((takeHost reg this).1).insert ops key anObject false).1) =
      some (putHost reg this ((reg this).insert ops key anObject false).1)
    refine congrArg some ?_
    funext x
    by_cases hx : x = this <;> simp [putHost, takeHost, hx]
  · intro ops reg this value key hnk
    rw [setValueForKey, if_neg hnk]
    show some (putHost (takeHost reg this).2 this
        (((takeHost reg this).1).insert ops key value false).1) =
      some (putHost reg this ((reg this).insert ops key value false).1)
    refine congrArg some ?_
    funext x
    by_cases hx : x = this <;> simp [putHost, takeHost, hx]

/-- Witness for C10 at a concrete registry and non-nil arguments. -/
theorem C10_registry_witness :
    ((1 : ObjId) ≠ nil ∧ (2 : ObjId) ≠ nil) ∧
    setObjectForKey opsIdHash (fun _ => emptyDict) 5 1 2 =
      some (putHost (fun _ => emptyDict) 5
        (((fun _ => emptyDict : Registry) 5).insert opsIdHash 2 1 false).1) ∧
    setValueForKey opsIdHash (fun _ => emptyDict) 5 1 2 =
      some (putHost (fun _ => emptyDict) 5
        (((fun _ => emptyDict : Registry) 5).insert opsIdHash 2 1 false).1) :=
  ⟨⟨by decide, by decide⟩,
    C10_registry_take_and_restore.2.2.1 opsIdHash (fun _ => emptyDict) 5 1 2
      (by decide) (by decide),
    C10_registry_take_and_restore.2.2.2 opsIdHash (fun _ => emptyDict) 5 1 2
      (by decide)⟩

end NSDictionary
